import Mathlib

/-!
Shallow embedding of the move-evaluation engine of the brainfuck board game
(`src/game.rs`): players, buckets, the tokenizer, the interpreter loop, board
orchestration (`eval`) and win detection (`winners`), together with proofs of
the specification claims.  Rust's `&mut self` methods are modelled as pure
state-passing functions returning the updated value; fallible methods return
the updated value paired with an `Except`.
-/

namespace BFG

/-- A player, identified by its symbol.  `Player` in `game.rs` wraps a single
`char` and compares by symbol, so we model it as `Char` directly. -/
abbrev Player := Char

/-- The possible errors while parsing and running a program
(`enum EvalError` in `game.rs`). -/
inductive EvalError where
  | Overflow (position : Nat)
  | Underflow (position : Nat)
  | OverBounds
  | UnderBounds
  | LockedIncr (position : Nat)
  | LockedDecr (position : Nat)
  | MismatchedLeft (idx : Nat)
  | MismatchedRight (idx : Nat)
  | MaxSteps
  | InvalidChar (c : Char) (idx : Nat)
  | Length (len : Nat) (turn : Nat)
deriving DecidableEq, Repr

/-- A bucket (`struct Bucket`): an ordered list of player counters plus a
`locked` flag.  In Rust the capacity is the allocation capacity of the
`counters` vector; it is fixed at construction (`Vec::with_capacity`), is
preserved by `Clone`, and never grows because every push is guarded by a free
slot check, so we model it as an explicit immutable field. -/
structure Bucket where
  counters : List Player
  capacity : Nat
  locked : Bool
deriving DecidableEq, Repr

/-- `Bucket::new`: an empty, unlocked bucket with the given capacity. -/
def Bucket.new (capacity : Nat) : Bucket :=
  { counters := [], capacity := capacity, locked := false }

/-- `Bucket::fill`: the number of counters currently in the bucket. -/
def Bucket.fill (b : Bucket) : Nat := b.counters.length

/-- `Bucket::free`: the number of free slots (`capacity - fill`; in Rust this
`usize` subtraction cannot underflow because `fill ≤ capacity` is maintained
by the push guard). -/
def Bucket.free (b : Bucket) : Nat := b.capacity - b.fill

/-- `Bucket::push`: push a counter for `player`.  On a full bucket it fails
(`LockedIncr` when locked, `Overflow` otherwise); when exactly one free slot
remains it appends the counter and locks the bucket if afterwards every
counter (including the new one) belongs to `player`; otherwise it appends
unconditionally.  The bucket is returned unchanged on failure. -/
def Bucket.push (b : Bucket) (player : Player) (position : Nat) :
    Bucket × Except EvalError Unit :=
  match b.free with
  | 0 =>
      (b, .error (if b.locked then .LockedIncr position else .Overflow position))
  | 1 =>
      if (b.counters ++ [player]).all (· = player) then
        ({ b with counters := b.counters ++ [player], locked := true }, .ok ())
      else
        ({ b with counters := b.counters ++ [player] }, .ok ())
  | _ + 2 =>
      ({ b with counters := b.counters ++ [player] }, .ok ())

/-- `Bucket::pop`: remove the most recently appended counter.  Fails with
`Underflow` on an empty bucket and `LockedDecr` on a locked one; the bucket is
returned unchanged on failure. -/
def Bucket.pop (b : Bucket) (position : Nat) : Bucket × Except EvalError Unit :=
  if b.fill = 0 then (b, .error (.Underflow position))
  else if b.locked then (b, .error (.LockedDecr position))
  else ({ b with counters := b.counters.dropLast }, .ok ())

/-- One of the four non-jump commands (`enum Command`). -/
inductive Command where
  | Increment
  | Decrement
  | MoveLeft
  | MoveRight
deriving DecidableEq, Repr

/-- A parsed instruction (`enum BrainfuckToken`). -/
inductive BrainfuckToken where
  | Command (cmd : Command)
  | JumpIfZero (target : Nat)
  | JumpIfNonzero (target : Nat)
deriving DecidableEq, Repr

/-- A tokenized program (`struct Brainfuck`): the instruction list together
with the program counter. -/
structure Brainfuck where
  tokens : List BrainfuckToken
  pointer : Nat
deriving DecidableEq, Repr

/-- The main loop of `Brainfuck::new`, over the non-whitespace characters of
the input.  `pos` is the enumeration index of the current character, `queue`
is the pending open-bracket stack (`VecDeque` used LIFO via `push_back` /
`pop_back`; the head of this list is the back of the deque, i.e. the most
recently pushed position) and `tokens` the instructions emitted so far.
On `]` the code pops the stack, emits `JumpIfNonzero` and rewrites the token
at the popped index; the Rust code pattern-matches that token as `JumpIfZero`
with an `unreachable!` fallback which can never fire (the stack only ever
holds indices of placeholder `JumpIfZero` tokens, proved below), so the
rewrite is modelled as `List.set`. -/
def tokenizeAux : List Char → Nat → List Nat → List BrainfuckToken →
    Except EvalError (List Nat × List BrainfuckToken)
  | [], _, queue, tokens => .ok (queue, tokens)
  | c :: cs, pos, queue, tokens =>
    match c with
    | '+' => tokenizeAux cs (pos + 1) queue (tokens ++ [.Command .Increment])
    | '-' => tokenizeAux cs (pos + 1) queue (tokens ++ [.Command .Decrement])
    | '<' => tokenizeAux cs (pos + 1) queue (tokens ++ [.Command .MoveLeft])
    | '>' => tokenizeAux cs (pos + 1) queue (tokens ++ [.Command .MoveRight])
    | '[' => tokenizeAux cs (pos + 1) (pos :: queue) (tokens ++ [.JumpIfZero 0])
    | ']' =>
      match queue with
      | [] => .error (.MismatchedRight pos)
      | target :: rest =>
          tokenizeAux cs (pos + 1) rest
            ((tokens.set target (.JumpIfZero pos)) ++ [.JumpIfNonzero target])
    | _ => .error (.InvalidChar c pos)

/-- `Brainfuck::new`: tokenize a string.  The iteration runs over the
non-whitespace characters only; after the pass, a non-empty pending stack
yields `MismatchedLeft` at the position popped from the back of the deque
(the most recently pushed entry, the head of our list). -/
def Brainfuck.new (str : String) : Except EvalError Brainfuck :=
  match tokenizeAux (str.data.filter (fun c => !c.isWhitespace)) 0 [] [] with
  | .error e => .error e
  | .ok (queue, tokens) =>
    match queue with
    | pos :: _ => .error (.MismatchedLeft pos)
    | [] => .ok { tokens := tokens, pointer := 0 }

/-- The game board (`struct GameBoard`).  `buffer_buckets` is a `u16` in the
source; we model it as a `Nat` and apply the `u16` truncation where the source
casts (`win_bucket_count` and the comparison in `winners`). -/
structure GameBoard where
  buckets : List Bucket
  position : Nat
  turn : Nat
  players : List Player
  buffer_buckets : Nat
deriving DecidableEq, Repr

/-- `GameBoard::new`: one empty bucket per capacity, position and turn 0, the
default player list `X`, `O`. -/
def GameBoard.new (capacities : List Nat) (buffer_buckets : Nat) : GameBoard :=
  { buckets := capacities.map Bucket.new
    position := 0
    turn := 0
    players := ['X', 'O']
    buffer_buckets := buffer_buckets }

/-- `GameBoard::player`: the current player is `players[turn % len]`
(`Players::idx` composed with the index operator).  For an empty player list
(never constructed by the bot: the default has two players) we return a
default symbol instead of modelling the Rust panic. -/
def GameBoard.player (g : GameBoard) : Player :=
  g.players.getD (g.turn % g.players.length) 'X'

/-- `GameBoard::bucket`: the bucket currently pointed at.  The index is in
bounds whenever the board has at least one bucket (the position invariant);
out of bounds we return a dummy bucket instead of modelling the Rust panic. -/
def GameBoard.bucket (g : GameBoard) : Bucket :=
  g.buckets.getD g.position (Bucket.new 0)

/-- `GameBoard::incr`: push the current player's counter onto the active
bucket, storing the (possibly unchanged) bucket back at the current
position. -/
def GameBoard.incr (g : GameBoard) : GameBoard × Except EvalError Unit :=
  ({ g with
      buckets := g.buckets.set g.position (g.bucket.push g.player g.position).1 },
   (g.bucket.push g.player g.position).2)

/-- `GameBoard::decr`: pop a counter from the active bucket, storing the
(possibly unchanged) bucket back at the current position. -/
def GameBoard.decr (g : GameBoard) : GameBoard × Except EvalError Unit :=
  ({ g with buckets := g.buckets.set g.position (g.bucket.pop g.position).1 },
   (g.bucket.pop g.position).2)

/-- `GameBoard::move_left`: fails with `UnderBounds` at position 0, otherwise
decrements the position. -/
def GameBoard.move_left (g : GameBoard) : GameBoard × Except EvalError Unit :=
  if g.position = 0 then (g, .error .UnderBounds)
  else ({ g with position := g.position - 1 }, .ok ())

/-- `GameBoard::move_right`: increments the position first and only then
checks the bound, so on failure the position is left at the invalid value
(the caller rolls the board back). -/
def GameBoard.move_right (g : GameBoard) : GameBoard × Except EvalError Unit :=
  if g.position + 1 = g.buckets.length then
    ({ g with position := g.position + 1 }, .error .OverBounds)
  else
    ({ g with position := g.position + 1 }, .ok ())

/-- `GameBoard::exec`: dispatch one command. -/
def GameBoard.exec (g : GameBoard) (cmd : Command) :
    GameBoard × Except EvalError Unit :=
  match cmd with
  | .Increment => g.incr
  | .Decrement => g.decr
  | .MoveLeft => g.move_left
  | .MoveRight => g.move_right

/-- The `for _ in 0..steps` loop of `GameBoard::run`.  Each iteration either
observes that the program counter has passed the end (normal halt), or decodes
and executes one instruction; when the iterations are used up the run fails
with `MaxSteps`.  The (possibly mutated) board is returned alongside the
result: the interpreter itself performs no rollback. -/
def GameBoard.runLoop : GameBoard → Brainfuck → Nat → GameBoard × Except EvalError Unit
  | g, _, 0 => (g, .error .MaxSteps)
  | g, bf, steps + 1 =>
    match bf.tokens[bf.pointer]? with
    | none => (g, .ok ())
    | some (.Command cmd) =>
      match g.exec cmd with
      | (g', .error e) => (g', .error e)
      | (g', .ok _) => GameBoard.runLoop g' { bf with pointer := bf.pointer + 1 } steps
    | some (.JumpIfZero target) =>
      if g.bucket.fill = 0 then GameBoard.runLoop g { bf with pointer := target } steps
      else GameBoard.runLoop g { bf with pointer := bf.pointer + 1 } steps
    | some (.JumpIfNonzero target) =>
      if g.bucket.fill = 0 then GameBoard.runLoop g { bf with pointer := bf.pointer + 1 } steps
      else GameBoard.runLoop g { bf with pointer := target } steps

/-- `GameBoard::run`: the length check (`bf.len() > self.turn + 1` fails with
`Length { len, turn: self.turn + 1 }`) followed by the interpreter loop.  The
step budget is a `u32` in the source, modelled as `Nat`. -/
def GameBoard.run (g : GameBoard) (bf : Brainfuck) (steps : Nat) :
    GameBoard × Except EvalError Unit :=
  if bf.tokens.length > g.turn + 1 then
    (g, .error (.Length bf.tokens.length (g.turn + 1)))
  else
    g.runLoop bf steps

/-- `GameBoard::eval`: tokenize, snapshot, run, and either restore the
snapshot verbatim (on any failure, including tokenizer failures which leave
the board untouched) or advance the turn.  Since our functions are pure, the
snapshot/restore of the source (`self.clone()` / `*self = backup`) becomes
returning the original board on failure. -/
def GameBoard.eval (g : GameBoard) (str : String) (steps : Nat) :
    GameBoard × Except EvalError Unit :=
  match Brainfuck.new str with
  | .error e => (g, .error e)
  | .ok bf =>
    match g.run bf steps with
    | (_, .error e) => (g, .error e)
    | (g', .ok _) => ({ g' with turn := g'.turn + 1 }, .ok ())

/-- `GameBoard::locked_buckets`: the number of locked buckets. -/
def GameBoard.locked_buckets (g : GameBoard) : Nat :=
  (g.buckets.filter (·.locked)).length

/-- `GameBoard::win_bucket_count`: `self.bucket_count() as u16 -
self.buffer_buckets`, i.e. a wrapping `u16` subtraction (release semantics);
for the configurations the bot builds, `buffer_buckets ≤ bucket_count <
2 ^ 16` and this is the plain difference. -/
def GameBoard.win_bucket_count (g : GameBoard) : Nat :=
  (g.buckets.length % 65536 + 65536 - g.buffer_buckets % 65536) % 65536

/-- The first counter of every bucket, in board order, mirroring the
`b.counters[0]` accesses of `GameBoard::winners`; indexing an empty bucket is
an index-out-of-bounds panic in Rust, modelled as `Except.error ()`. -/
def bucketOwners : List Bucket → Except Unit (List Player)
  | [] => .ok []
  | b :: bs =>
    match b.counters with
    | [] => .error ()
    | p :: _ =>
      match bucketOwners bs with
      | .error e => .error e
      | .ok ps => .ok (p :: ps)

/-- The second loop of `GameBoard::winners`: fold over the `(player, count)`
entries keeping the running maximum and the list of players achieving it
(`Ordering::Equal` appends, `Ordering::Greater` restarts the list,
`Ordering::Less` skips). -/
def collectWinners : Nat → List Player → List (Player × Nat) → Nat × List Player
  | m, w, [] => (m, w)
  | m, w, (p, c) :: es =>
    if c = m then collectWinners m (w ++ [p]) es
    else if m < c then collectWinners c [p] es
    else collectWinners m w es

/-- `GameBoard::winners`.  Below the lock threshold (`locked_buckets as u16 <
win_bucket_count`) there is no winner yet.  Otherwise the first counter of
every bucket is tallied into a `HashMap` (panicking on an empty bucket,
modelled by `Except.error`), and the players tied for the maximal tally are
collected.  The `HashMap` iteration order is unspecified in Rust; we iterate
the distinct owners in a canonical order — the collected set of winners is
independent of that order, see the `collectWinners` membership lemma. -/
def GameBoard.winners (g : GameBoard) : Except Unit (Option (List Player)) :=
  if g.locked_buckets % 65536 < g.win_bucket_count then .ok none
  else
    match bucketOwners g.buckets with
    | .error e => .error e
    | .ok owners =>
      let entries := owners.dedup.map (fun p => (p, owners.count p))
      .ok (some (collectWinners 0 [] entries).2)

/-- The bucket well-formedness invariant maintained by the game: a locked
bucket is full.  (`locked` is set only in the one-free-slot branch of
`Bucket::push`, right after the append fills the bucket.) -/
def Bucket.WF (b : Bucket) : Prop :=
  b.locked = true → b.counters.length = b.capacity

/-- The state of the interpreter loop, used to phrase step-budget claims:
either still running (the end of the program has not been observed yet), or
halted normally, or failed. -/
inductive RunState where
  | running (g : GameBoard) (bf : Brainfuck)
  | done (g : GameBoard)
  | failed (g : GameBoard) (e : EvalError)
deriving DecidableEq, Repr

/-- One iteration of the interpreter loop as a step function on `RunState`;
`done` and `failed` are absorbing. -/
def runStep : RunState → RunState
  | .running g bf =>
    match bf.tokens[bf.pointer]? with
    | none => .done g
    | some (.Command cmd) =>
      match g.exec cmd with
      | (g', .error e) => .failed g' e
      | (g', .ok _) => .running g' { bf with pointer := bf.pointer + 1 }
    | some (.JumpIfZero target) =>
      if g.bucket.fill = 0 then .running g { bf with pointer := target }
      else .running g { bf with pointer := bf.pointer + 1 }
    | some (.JumpIfNonzero target) =>
      if g.bucket.fill = 0 then .running g { bf with pointer := bf.pointer + 1 }
      else .running g { bf with pointer := target }
  | s => s

/-- Whether a `RunState` is still running. -/
def RunState.isRunning : RunState → Bool
  | .running _ _ => true
  | _ => false

/-- The invariant of the tokenizer loop: the enumeration index equals the
number of tokens emitted; the pending stack is strictly decreasing (its head,
the most recently pushed position, is the largest); every stack entry points
at a placeholder `JumpIfZero 0`; every `JumpIfZero` is either still pending or
correctly paired; and every `JumpIfNonzero` is correctly paired with a
resolved (non-pending) `JumpIfZero`. -/
def TokInv (pos : Nat) (queue : List Nat) (tokens : List BrainfuckToken) : Prop :=
  pos = tokens.length ∧
  queue.Pairwise (fun a b => b < a) ∧
  (∀ j ∈ queue, tokens[j]? = some (.JumpIfZero 0)) ∧
  (∀ i t, tokens[i]? = some (.JumpIfZero t) →
    i ∈ queue ∨ tokens[t]? = some (.JumpIfNonzero i)) ∧
  (∀ i t, tokens[i]? = some (.JumpIfNonzero t) →
    t ∉ queue ∧ tokens[t]? = some (.JumpIfZero i))

/-- The largest second component in a list of tally entries. -/
def sndMax (es : List (Player × Nat)) : Nat :=
  es.foldr (fun e m => max e.2 m) 0

end BFG

deriving instance DecidableEq for Except

namespace BFG

/-- `GameBoard::exec` only ever fails with a bucket or bounds error, never
with `MaxSteps` or `Length`. -/
theorem exec_error_shape (g : GameBoard) (cmd : Command) (e : EvalError)
    (h : (g.exec cmd).2 = .error e) :
    e ≠ .MaxSteps ∧ ∀ l t, e ≠ .Length l t := by
  cases cmd with
  | Increment =>
    simp only [GameBoard.exec, GameBoard.incr] at h
    unfold Bucket.push at h
    split at h
    all_goals try split at h
    all_goals simp at h
    all_goals (cases h; simp)
  | Decrement =>
    simp only [GameBoard.exec, GameBoard.decr] at h
    unfold Bucket.pop at h
    split at h
    all_goals try split at h
    all_goals simp at h
    all_goals (cases h; simp)
  | MoveLeft =>
    simp only [GameBoard.exec] at h
    unfold GameBoard.move_left at h
    split at h
    all_goals simp at h
    all_goals (cases h; simp)
  | MoveRight =>
    simp only [GameBoard.exec] at h
    unfold GameBoard.move_right at h
    split at h
    all_goals simp at h
    all_goals (cases h; simp)

/-- The interpreter loop never fails with a `Length` error: that error is
produced only by the pre-check in `GameBoard::run`. -/
theorem runLoop_no_length (g : GameBoard) (bf : Brainfuck) (steps : Nat)
    (l t : Nat) : (g.runLoop bf steps).2 ≠ .error (.Length l t) := by
  induction steps generalizing g bf with
  | zero => simp [GameBoard.runLoop]
  | succ n ih =>
    simp only [GameBoard.runLoop]
    split
    · simp
    · rename_i cmd hread
      split
      · rename_i g' e heq
        have h2 : (g.exec cmd).2 = .error e := by rw [heq]
        have h3 := (exec_error_shape g cmd e h2).2 l t
        simp [h3]
      · rename_i g' u heq
        exact ih _ _
    · split <;> exact ih _ _
    · split <;> exact ih _ _

/-- C1: for every move string and every step budget, if `GameBoard::eval`
returns an error, the board after the call is exactly the board before the
call: `eval` snapshots the board up front and restores the snapshot verbatim
on any failure. -/
theorem eval_atomic (g : GameBoard) (s : String) (steps : Nat) (e : EvalError)
    (h : (g.eval s steps).2 = .error e) : (g.eval s steps).1 = g := by
  unfold GameBoard.eval at h ⊢
  cases htok : Brainfuck.new s with
  | error e' => simp
  | ok bf =>
    rw [htok] at h
    rcases hrun : g.run bf steps with ⟨g', r⟩
    cases r with
    | error e' => simp [hrun]
    | ok u => simp [hrun] at h

/-- Witness for C1 at a concrete failing call: on the default board a
two-instruction move is rejected on turn 0 and the board is unchanged. -/
theorem eval_atomic_witness :
    ((GameBoard.new [10, 10, 10, 10, 10] 0).eval "++" 10).1 =
      GameBoard.new [10, 10, 10, 10, 10] 0 :=
  eval_atomic (GameBoard.new [10, 10, 10, 10, 10] 0) "++" 10 (.Length 2 1)
    (by decide)

/-- C2: the code panics where the claim requires it not to.  Starting from a
fresh board with two buckets of capacity 1 and one buffer bucket, the single
legal move `"+"` locks bucket 0, so the locked count (1) meets the win
threshold (`2 - 1 = 1`) while bucket 1 is still empty; `winners()` then
indexes `b.counters[0]` on the empty bucket and panics (modelled as
`Except.error ()`) instead of treating it as contributing no point. -/
theorem winners_panics_on_empty_bucket :
    ((GameBoard.new [1, 1] 1).eval "+" 5).2 = .ok () ∧
    (((GameBoard.new [1, 1] 1).eval "+" 5).1).locked_buckets = 1 ∧
    (((GameBoard.new [1, 1] 1).eval "+" 5).1).win_bucket_count = 1 ∧
    (∃ b ∈ (((GameBoard.new [1, 1] 1).eval "+" 5).1).buckets, b.counters = []) ∧
    (((GameBoard.new [1, 1] 1).eval "+" 5).1).winners = .error () := by
  decide

/-- C3, counterexample: on `"[["` the claim demands
`MismatchedLeft 0` (the oldest unmatched `[`, at position 0), but the code
pops the pending stack from the back and reports the newest unmatched `[`,
at position 1. -/
theorem mismatched_left_cex :
    Brainfuck.new "[[" = .error (.MismatchedLeft 1) ∧
    Brainfuck.new "[[" ≠ .error (.MismatchedLeft 0) := by
  decide

/-- C4, counterexample: the one-instruction straight-line program `"+"` run
with a budget of exactly 1 executes its only (last) instruction on the final
budget unit, yet `run` fails with `MaxSteps` instead of halting successfully:
observing that the program counter has passed the end costs one further
iteration. -/
theorem maxsteps_cex :
    Brainfuck.new "+" = .ok { tokens := [.Command .Increment], pointer := 0 } ∧
    ((GameBoard.new [10, 10, 10, 10, 10] 0).run
        { tokens := [.Command .Increment], pointer := 0 } 1).2 =
      .error .MaxSteps := by
  decide

/-- C4, amended: the interpreter loop fails with `MaxSteps` iff after `steps`
iterations of the step function the machine is still in the `running` state —
i.e. the budget ran out before an iteration observed that the program counter
had passed the end (that observation itself costs one iteration, so a
straight-line program with `k` instructions needs a budget of at least
`k + 1` to halt successfully). -/
theorem runLoop_maxsteps_iff (g : GameBoard) (bf : Brainfuck) (steps : Nat) :
    (g.runLoop bf steps).2 = .error .MaxSteps ↔
      (runStep^[steps] (.running g bf)).isRunning = true := by
  induction steps generalizing g bf with
  | zero => simp [GameBoard.runLoop, RunState.isRunning]
  | succ n ih =>
    rw [Function.iterate_succ_apply]
    cases hread : bf.tokens[bf.pointer]? with
    | none =>
      simp only [GameBoard.runLoop, runStep, hread]
      rw [Function.iterate_fixed (rfl : runStep (.done g) = .done g)]
      simp [RunState.isRunning]
    | some instr =>
      cases instr with
      | Command cmd =>
        rcases hexec : g.exec cmd with ⟨g', r⟩
        cases r with
        | error e =>
          have hne := (exec_error_shape g cmd e (by rw [hexec])).1
          simp only [GameBoard.runLoop, runStep, hread, hexec]
          rw [Function.iterate_fixed (rfl : runStep (.failed g' e) = .failed g' e)]
          simp [RunState.isRunning, hne]
        | ok u =>
          simp only [GameBoard.runLoop, runStep, hread, hexec]
          exact ih g' { bf with pointer := bf.pointer + 1 }
      | JumpIfZero target =>
        by_cases hf : g.bucket.fill = 0
        · simp only [GameBoard.runLoop, runStep, hread, if_pos hf]
          exact ih g { bf with pointer := target }
        · simp only [GameBoard.runLoop, runStep, hread, if_neg hf]
          exact ih g { bf with pointer := bf.pointer + 1 }
      | JumpIfNonzero target =>
        by_cases hf : g.bucket.fill = 0
        · simp only [GameBoard.runLoop, runStep, hread, if_pos hf]
          exact ih g { bf with pointer := bf.pointer + 1 }
        · simp only [GameBoard.runLoop, runStep, hread, if_neg hf]
          exact ih g { bf with pointer := target }

/-- The tokenizer invariant holds at the start of the pass. -/
theorem tokInv_init : TokInv 0 [] [] :=
  ⟨rfl, List.Pairwise.nil, by simp, by simp, by simp⟩

/-- Emitting a plain command token preserves the tokenizer invariant. -/
theorem TokInv.append_cmd {pos : Nat} {queue : List Nat}
    {tokens : List BrainfuckToken} (h : TokInv pos queue tokens)
    (cmd : Command) : TokInv (pos + 1) queue (tokens ++ [.Command cmd]) := by
  obtain ⟨hpos, hpw, hq, hz, hnz⟩ := h
  refine ⟨by simp [hpos], hpw, ?_, ?_, ?_⟩
  · intro j hj
    rw [List.getElem?_append_left ((List.getElem?_eq_some_iff.mp (hq j hj)).1)]
    exact hq j hj
  · intro i t hi
    by_cases hlt : i < tokens.length
    · rw [List.getElem?_append_left hlt] at hi
      rcases hz i t hi with hc | hc
      · exact Or.inl hc
      · right
        rw [List.getElem?_append_left ((List.getElem?_eq_some_iff.mp hc).1)]
        exact hc
    · have hieq : i = tokens.length := by
        have hb := (List.getElem?_eq_some_iff.mp hi).1
        simp at hb
        omega
      subst hieq
      rw [List.getElem?_concat_length] at hi
      simp at hi
  · intro i t hi
    by_cases hlt : i < tokens.length
    · rw [List.getElem?_append_left hlt] at hi
      obtain ⟨hnq, hc⟩ := hnz i t hi
      refine ⟨hnq, ?_⟩
      rw [List.getElem?_append_left ((List.getElem?_eq_some_iff.mp hc).1)]
      exact hc
    · have hieq : i = tokens.length := by
        have hb := (List.getElem?_eq_some_iff.mp hi).1
        simp at hb
        omega
      subst hieq
      rw [List.getElem?_concat_length] at hi
      simp at hi

/-- Emitting the placeholder for `[` and pushing its position preserves the
tokenizer invariant. -/
theorem TokInv.open_bracket {pos : Nat} {queue : List Nat}
    {tokens : List BrainfuckToken} (h : TokInv pos queue tokens) :
    TokInv (pos + 1) (pos :: queue) (tokens ++ [.JumpIfZero 0]) := by
  obtain ⟨hpos, hpw, hq, hz, hnz⟩ := h
  have hqlt : ∀ j ∈ queue, j < tokens.length := fun j hj =>
    (List.getElem?_eq_some_iff.mp (hq j hj)).1
  subst hpos
  refine ⟨by simp, List.Pairwise.cons (fun j hj => hqlt j hj) hpw, ?_, ?_, ?_⟩
  · intro j hj
    rcases List.mem_cons.mp hj with rfl | hj'
    · rw [List.getElem?_concat_length]
    · rw [List.getElem?_append_left (hqlt j hj')]
      exact hq j hj'
  · intro i t hi
    by_cases hlt : i < tokens.length
    · rw [List.getElem?_append_left hlt] at hi
      rcases hz i t hi with hc | hc
      · exact Or.inl (List.mem_cons_of_mem _ hc)
      · right
        rw [List.getElem?_append_left ((List.getElem?_eq_some_iff.mp hc).1)]
        exact hc
    · have hieq : i = tokens.length := by
        have hb := (List.getElem?_eq_some_iff.mp hi).1
        simp at hb
        omega
      subst hieq
      exact Or.inl (List.mem_cons_self _ _)
  · intro i t hi
    by_cases hlt : i < tokens.length
    · rw [List.getElem?_append_left hlt] at hi
      obtain ⟨hnq, hc⟩ := hnz i t hi
      have ht := (List.getElem?_eq_some_iff.mp hc).1
      refine ⟨?_, ?_⟩
      · intro hmem
        rcases List.mem_cons.mp hmem with rfl | h'
        · omega
        · exact hnq h'
      · rw [List.getElem?_append_left ht]
        exact hc
    · have hieq : i = tokens.length := by
        have hb := (List.getElem?_eq_some_iff.mp hi).1
        simp at hb
        omega
      subst hieq
      rw [List.getElem?_concat_length] at hi
      simp at hi

/-- Resolving a `]` against the top of the pending stack preserves the
tokenizer invariant. -/
theorem TokInv.close_bracket {pos : Nat} {j : Nat} {rest : List Nat}
    {tokens : List BrainfuckToken} (h : TokInv pos (j :: rest) tokens) :
    TokInv (pos + 1) rest
      ((tokens.set j (.JumpIfZero pos)) ++ [.JumpIfNonzero j]) := by
  obtain ⟨hpos, hpw, hq, hz, hnz⟩ := h
  subst hpos
  have hjlt : j < tokens.length :=
    (List.getElem?_eq_some_iff.mp (hq j (List.mem_cons_self _ _))).1
  have hrest : ∀ x ∈ rest, x < j := (List.pairwise_cons.mp hpw).1
  have hrestlt : ∀ x ∈ rest, x < tokens.length := fun x hx =>
    (List.getElem?_eq_some_iff.mp (hq x (List.mem_cons_of_mem _ hx))).1
  have hts : ∀ i, i < tokens.length → i ≠ j →
      ((tokens.set j (.JumpIfZero tokens.length)) ++ [.JumpIfNonzero j])[i]? =
        tokens[i]? := by
    intro i hilt hij
    rw [List.getElem?_append_left (by simp; omega),
      List.getElem?_set_ne (Ne.symm hij)]
  have htj : ((tokens.set j (.JumpIfZero tokens.length)) ++
      [.JumpIfNonzero j])[j]? = some (.JumpIfZero tokens.length) := by
    rw [List.getElem?_append_left (by simp; omega), List.getElem?_set_self hjlt]
  have htl : ((tokens.set j (.JumpIfZero tokens.length)) ++
      [.JumpIfNonzero j])[tokens.length]? = some (.JumpIfNonzero j) := by
    have hc := List.getElem?_concat_length
      (tokens.set j (.JumpIfZero tokens.length)) (.JumpIfNonzero j)
    rwa [List.length_set] at hc
  refine ⟨by simp, (List.pairwise_cons.mp hpw).2, ?_, ?_, ?_⟩
  · intro x hx
    have hxj : x ≠ j := by
      have := hrest x hx
      omega
    rw [hts x (hrestlt x hx) hxj]
    exact hq x (List.mem_cons_of_mem _ hx)
  · intro i t hi
    by_cases hilen : i < tokens.length
    · by_cases hij : i = j
      · subst hij
        rw [htj] at hi
        have ht : t = tokens.length := by
          simp at hi
          omega
        subst ht
        right
        rw [htl]
      · rw [hts i hilen hij] at hi
        rcases hz i t hi with hc | hc
        · rcases List.mem_cons.mp hc with rfl | h'
          · exact absurd rfl hij
          · exact Or.inl h'
        · right
          have htlt : t < tokens.length := (List.getElem?_eq_some_iff.mp hc).1
          have htnj : t ≠ j := by
            intro hh
            subst hh
            rw [hq t (List.mem_cons_self _ _)] at hc
            simp at hc
          rw [hts t htlt htnj]
          exact hc
    · have hieq : i = tokens.length := by
        have hb := (List.getElem?_eq_some_iff.mp hi).1
        simp at hb
        omega
      subst hieq
      rw [htl] at hi
      simp at hi
  · intro i t hi
    by_cases hilen : i < tokens.length
    · by_cases hij : i = j
      · subst hij
        rw [htj] at hi
        simp at hi
      · rw [hts i hilen hij] at hi
        obtain ⟨hnq, hc⟩ := hnz i t hi
        have htlt : t < tokens.length := (List.getElem?_eq_some_iff.mp hc).1
        have htnj : t ≠ j := fun hh => hnq (hh ▸ List.mem_cons_self _ _)
        refine ⟨fun hmem => hnq (List.mem_cons_of_mem _ hmem), ?_⟩
        rw [hts t htlt htnj]
        exact hc
    · have hieq : i = tokens.length := by
        have hb := (List.getElem?_eq_some_iff.mp hi).1
        simp at hb
        omega
      subst hieq
      rw [htl] at hi
      have ht : t = j := by
        simp at hi
        omega
      subst ht
      refine ⟨fun hmem => ?_, htj⟩
      have := hrest t hmem
      omega

/-- Every successful completion of the tokenizer pass preserves the
invariant. -/
theorem tokenizeAux_inv :
    ∀ (cs : List Char) (pos : Nat) (queue : List Nat)
      (tokens : List BrainfuckToken) (q' : List Nat)
      (t' : List BrainfuckToken),
      TokInv pos queue tokens →
      tokenizeAux cs pos queue tokens = .ok (q', t') →
      TokInv (pos + cs.length) q' t' := by
  intro cs
  induction cs with
  | nil =>
    intro pos queue tokens q' t' hinv h
    simp only [tokenizeAux] at h
    simp at h
    obtain ⟨h1, h2⟩ := h
    subst h1
    subst h2
    simpa using hinv
  | cons c cs ih =>
    intro pos queue tokens q' t' hinv h
    have harith : pos + (c :: cs).length = (pos + 1) + cs.length := by
      simp [List.length_cons]
      omega
    rw [harith]
    simp only [tokenizeAux] at h
    split at h
    · exact ih _ _ _ _ _ (hinv.append_cmd .Increment) h
    · exact ih _ _ _ _ _ (hinv.append_cmd .Decrement) h
    · exact ih _ _ _ _ _ (hinv.append_cmd .MoveLeft) h
    · exact ih _ _ _ _ _ (hinv.append_cmd .MoveRight) h
    · exact ih _ _ _ _ _ hinv.open_bracket h
    · split at h
      · simp at h
      · exact ih _ _ _ _ _ hinv.close_bracket h
    · simp at h

/-- C3, amended: when the tokenizer pass completes with a non-empty pending
stack, tokenization fails with `MismatchedLeft` carrying the index at the top
of the stack — the newest (rightmost) unmatched `[`, which is the largest
index on the stack — not the oldest one. -/
theorem mismatched_left_reports_top (s : String) (i : Nat) (rest : List Nat)
    (tokens : List BrainfuckToken)
    (h : tokenizeAux (s.data.filter (fun c => !c.isWhitespace)) 0 [] [] =
      .ok (i :: rest, tokens)) :
    Brainfuck.new s = .error (.MismatchedLeft i) ∧ ∀ j ∈ i :: rest, j ≤ i := by
  constructor
  · unfold Brainfuck.new
    rw [h]
  · have hinv := tokenizeAux_inv _ _ _ _ _ _ tokInv_init h
    obtain ⟨-, hpw, -, -, -⟩ := hinv
    intro j hj
    rcases List.mem_cons.mp hj with rfl | hj'
    · exact Nat.le_refl j
    · have := (List.pairwise_cons.mp hpw).1 j hj'
      omega

/-- Witness for the amended C3 at `"[["`: the reported index is 1, the top of
the final stack `[1, 0]` and its largest entry. -/
theorem mismatched_left_reports_top_witness :
    Brainfuck.new "[[" = .error (.MismatchedLeft 1) ∧ ∀ j ∈ [1, 0], j ≤ 1 :=
  mismatched_left_reports_top "[[" 1 [0] [.JumpIfZero 0, .JumpIfZero 0]
    (by decide)

/-- C6: every successfully tokenized program satisfies jump-target duality:
a `JumpIfZero t` at index `i` is paired with `JumpIfNonzero i` at index `t`,
and vice versa. -/
theorem jump_target_duality (s : String) (bf : Brainfuck)
    (h : Brainfuck.new s = .ok bf) :
    ∀ (i t : Nat),
      (bf.tokens[i]? = some (.JumpIfZero t) →
        bf.tokens[t]? = some (.JumpIfNonzero i)) ∧
      (bf.tokens[i]? = some (.JumpIfNonzero t) →
        bf.tokens[t]? = some (.JumpIfZero i)) := by
  unfold Brainfuck.new at h
  rcases htk : tokenizeAux (s.data.filter (fun c => !c.isWhitespace)) 0 [] []
    with e | ⟨queue, tokens⟩
  · rw [htk] at h
    simp at h
  · rw [htk] at h
    cases queue with
    | cons p rest => simp at h
    | nil =>
      have hinv := tokenizeAux_inv _ _ _ _ _ _ tokInv_init htk
      obtain ⟨-, -, -, hz, hnz⟩ := hinv
      have hbf : bf.tokens = tokens := by
        simp at h
        rw [← h]
      rw [hbf]
      intro i t
      refine ⟨fun hi => ?_, fun hi => (hnz i t hi).2⟩
      rcases hz i t hi with hc | hc
      · simp at hc
      · exact hc

/-- Witness for C6 on the concrete program `"[]"`: the `JumpIfNonzero` at
index 1 targets index 0, which holds the matching `JumpIfZero` targeting 1. -/
theorem jump_target_duality_witness :
    (Brainfuck.mk [.JumpIfZero 1, .JumpIfNonzero 0] 0).tokens[1]? =
      some (.JumpIfNonzero 0) ∧
    (Brainfuck.mk [.JumpIfZero 1, .JumpIfNonzero 0] 0).tokens[0]? =
      some (.JumpIfZero 1) :=
  ⟨by decide,
    (jump_target_duality "[]" (Brainfuck.mk [.JumpIfZero 1, .JumpIfNonzero 0] 0)
      (by decide) 1 0).2 (by decide)⟩

/-- C5: a tokenized program with `k` instructions passes the length check of
`GameBoard::run` iff `k ≤ turn + 1`; on violation the run fails with
`Length { len := k, turn := turn + 1 }` and returns the board untouched. -/
theorem length_law (g : GameBoard) (bf : Brainfuck) (steps : Nat) :
    ((∃ l t, (g.run bf steps).2 = .error (.Length l t)) ↔
      g.turn + 1 < bf.tokens.length) ∧
    (g.turn + 1 < bf.tokens.length →
      g.run bf steps = (g, .error (.Length bf.tokens.length (g.turn + 1)))) := by
  unfold GameBoard.run
  by_cases hlen : g.turn + 1 < bf.tokens.length
  · rw [if_pos (by omega)]
    refine ⟨⟨fun _ => hlen, fun _ => ⟨bf.tokens.length, g.turn + 1, rfl⟩⟩, fun _ => rfl⟩
  · rw [if_neg (by omega)]
    refine ⟨⟨fun ⟨l, t, hc⟩ => absurd hc (runLoop_no_length g bf steps l t),
      fun hc => absurd hc hlen⟩, fun hc => absurd hc hlen⟩

/-- Witness for C5: on turn 0 a two-instruction program is rejected with
`Length { len := 2, turn := 1 }` and the default board is untouched. -/
theorem length_law_witness :
    (GameBoard.new [10, 10, 10, 10, 10] 0).run
        { tokens := [.Command .Increment, .Command .Increment], pointer := 0 } 7 =
      (GameBoard.new [10, 10, 10, 10, 10] 0, .error (.Length 2 1)) :=
  (length_law (GameBoard.new [10, 10, 10, 10, 10] 0)
    { tokens := [.Command .Increment, .Command .Increment], pointer := 0 } 7).2
    (by decide)

/-- C7: a locked (well-formed, hence full) bucket rejects every push and pop
and is left unchanged by them; no bucket operation ever clears the `locked`
flag; and whenever a push sets `locked`, the resulting bucket is full and all
its counters belong to the pushing player. -/
theorem lock_irreversibility (b : Bucket) (p : Player) (pos pos' : Nat)
    (hwf : b.WF) (hl : b.locked = true) :
    ((b.push p pos).1 = b ∧ (∃ e, (b.push p pos).2 = .error e)) ∧
    ((b.pop pos').1 = b ∧ (∃ e, (b.pop pos').2 = .error e)) ∧
    (∀ b' : Bucket, ∀ q j, b'.locked = true → ((b'.push q j).1).locked = true) ∧
    (∀ b' : Bucket, ∀ j, b'.locked = true → ((b'.pop j).1).locked = true) ∧
    (∀ b' : Bucket, ∀ q j, b'.locked = false → ((b'.push q j).1).locked = true →
      ((b'.push q j).1).counters.length = ((b'.push q j).1).capacity ∧
        ∀ c ∈ ((b'.push q j).1).counters, c = q) := by
  have hfree : b.free = 0 := by
    have := hwf hl
    simp [Bucket.free, Bucket.fill, this]
  refine ⟨?_, ?_, ?_, ?_, ?_⟩
  · unfold Bucket.push
    rw [hfree]
    exact ⟨rfl, _, rfl⟩
  · unfold Bucket.pop
    by_cases hfill : b.fill = 0
    · rw [if_pos hfill]
      exact ⟨rfl, _, rfl⟩
    · rw [if_neg hfill, if_pos hl]
      exact ⟨rfl, _, rfl⟩
  · intro b' q j hl'
    unfold Bucket.push
    split
    all_goals try split
    all_goals first | rfl | exact hl'
  · intro b' j hl'
    unfold Bucket.pop
    split
    all_goals exact hl'
  · intro b' q j hl' hset
    revert hset
    unfold Bucket.push
    split
    · intro hset
      exact absurd hset (by simp [hl'])
    · rename_i hfr
      split
      · rename_i hall
        intro _
        simp only [List.all_eq_true, decide_eq_true_eq] at hall
        refine ⟨?_, fun c hc => hall c hc⟩
        simp only [List.length_append, List.length_singleton]
        simp only [Bucket.free, Bucket.fill] at hfr
        omega
      · intro hset
        exact absurd hset (by simp [hl'])
    · intro hset
      exact absurd hset (by simp [hl'])

/-- Witness for C7 at a concrete locked bucket: the full, homogeneous,
locked bucket `['X']` of capacity 1 rejects a push and is unchanged. -/
theorem lock_irreversibility_witness :
    ((Bucket.mk ['X'] 1 true).push 'O' 0).1 = Bucket.mk ['X'] 1 true :=
  (lock_irreversibility (Bucket.mk ['X'] 1 true) 'O' 0 0
    (by intro _; rfl) rfl).1.1

/-- C8: pushing into an unlocked bucket with exactly one free slot succeeds
and appends the counter; the bucket locks exactly when afterwards every
counter (including the new one) belongs to the pushing player, and stays
unlocked (with the counter still appended) otherwise. -/
theorem push_one_free_slot (b : Bucket) (p : Player) (pos : Nat)
    (hl : b.locked = false) (hf : b.free = 1) :
    (b.push p pos).2 = .ok () ∧
    ((b.push p pos).1).counters = b.counters ++ [p] ∧
    ((b.push p pos).1).capacity = b.capacity ∧
    (((b.push p pos).1).locked = true ↔ ∀ c ∈ b.counters ++ [p], c = p) := by
  unfold Bucket.push
  rw [hf]
  by_cases hall : ((b.counters ++ [p]).all (· = p)) = true
  · rw [if_pos hall]
    refine ⟨rfl, rfl, rfl, ⟨fun _ => ?_, fun _ => rfl⟩⟩
    simp only [List.all_eq_true, decide_eq_true_eq] at hall
    exact hall
  · rw [if_neg hall]
    simp only [List.all_eq_true, decide_eq_true_eq, not_forall] at hall
    refine ⟨rfl, rfl, rfl, ?_⟩
    constructor
    · intro hc
      have hc2 : b.locked = true := hc
      rw [hl] at hc2
      cases hc2
    · intro hc
      obtain ⟨c, hc1, hc2⟩ := hall
      exact absurd (hc c hc1) hc2

/-- Witness for C8: pushing `'O'` into the unlocked bucket `['X']` of
capacity 2 succeeds, appends the counter, and leaves the bucket unlocked. -/
theorem push_one_free_slot_witness :
    ((Bucket.mk ['X'] 2 false).push 'O' 3).2 = .ok () :=
  (push_one_free_slot (Bucket.mk ['X'] 2 false) 'O' 3 rfl rfl).1

/-- C9, counterexample: after the single legal move on a two-bucket board
with one buffer bucket, the lock threshold is met (1 locked bucket, threshold
`2 - 1 = 1`), yet `winners` does not return a winner set at all — it panics
(index out of bounds) on the still-empty second bucket. -/
theorem winners_cex_no_set_at_threshold :
    ¬ ((((GameBoard.new [1, 1] 1).eval "+" 5).1).locked_buckets <
        (((GameBoard.new [1, 1] 1).eval "+" 5).1).buckets.length -
          (((GameBoard.new [1, 1] 1).eval "+" 5).1).buffer_buckets) ∧
    (((GameBoard.new [1, 1] 1).eval "+" 5).1).winners = .error () := by
  decide

/-- The second component of a tally entry never exceeds the running maximum
of the entry list. -/
theorem le_sndMax (es : List (Player × Nat)) (p : Player) (c : Nat)
    (h : (p, c) ∈ es) : c ≤ sndMax es := by
  induction es with
  | nil => cases h
  | cons e es ih =>
    rcases List.mem_cons.mp h with rfl | h'
    · exact le_max_left _ _
    · exact le_trans (ih h') (le_max_right _ _)

/-- The maximum of a non-empty entry list is attained by some entry. -/
theorem sndMax_attained (es : List (Player × Nat)) (hne : es ≠ []) :
    ∃ p, (p, sndMax es) ∈ es := by
  induction es with
  | nil => cases hne rfl
  | cons e es ih =>
    obtain ⟨q, c⟩ := e
    by_cases he : es = []
    · subst he
      exact ⟨q, by simp [sndMax]⟩
    · obtain ⟨p, hp⟩ := ih he
      by_cases hle : sndMax es ≤ c
      · refine ⟨q, ?_⟩
        have hm : sndMax ((q, c) :: es) = c := max_eq_left hle
        rw [hm]
        exact List.mem_cons_self _ _
      · refine ⟨p, ?_⟩
        have hm : sndMax ((q, c) :: es) = sndMax es :=
          max_eq_right (le_of_not_le hle)
        rw [hm]
        exact List.mem_cons_of_mem _ hp

/-- Membership in the winner list built by the tally fold of
`GameBoard::winners`: a player is collected iff it either survives from the
initial accumulator (when no entry beats the initial maximum) or appears in
an entry carrying the overall maximum.  In particular the collected set does
not depend on the order of the entries. -/
theorem collectWinners_mem (es : List (Player × Nat)) :
    ∀ (m : Nat) (w : List Player) (p : Player),
      p ∈ (collectWinners m w es).2 ↔
        (p ∈ w ∧ sndMax es ≤ m) ∨ (p, max m (sndMax es)) ∈ es := by
  induction es with
  | nil =>
    intro m w p
    simp [collectWinners, sndMax]
  | cons e es ih =>
    obtain ⟨q, c⟩ := e
    intro m w p
    have hsm : sndMax ((q, c) :: es) = max c (sndMax es) := rfl
    simp only [collectWinners, hsm]
    by_cases hc : c = m
    · rw [if_pos hc]
      subst hc
      rw [ih]
      have hcc : c ≤ c := Nat.le_refl c
      by_cases hs : sndMax es ≤ c
      · rw [max_eq_left hs, max_eq_left hcc]
        simp only [List.mem_append, List.mem_singleton, List.mem_cons,
          Prod.mk.injEq]
        tauto
      · have hlt := lt_of_not_le hs
        have hne : ¬(sndMax es = c) := by omega
        rw [max_eq_right (le_of_lt hlt), max_eq_right (le_of_lt hlt)]
        simp only [List.mem_append, List.mem_singleton, List.mem_cons,
          Prod.mk.injEq]
        tauto
    · rw [if_neg hc]
      by_cases hlt : m < c
      · rw [if_pos hlt]
        rw [ih]
        have hmle : m ≤ max c (sndMax es) :=
          le_trans (le_of_lt hlt) (le_max_left _ _)
        rw [max_eq_right hmle]
        have hfalse : ¬(max c (sndMax es) ≤ m) := by
          have := le_max_left c (sndMax es)
          omega
        by_cases hs : sndMax es ≤ c
        · rw [max_eq_left hs]
          have hcc : c ≤ c := Nat.le_refl c
          simp only [List.mem_singleton, List.mem_cons, Prod.mk.injEq]
          have hf2 : ¬(c ≤ m) := by omega
          tauto
        · have hlt2 := lt_of_not_le hs
          rw [max_eq_right (le_of_lt hlt2)]
          have hne2 : ¬(sndMax es = c) := by omega
          have hf2 : ¬(sndMax es ≤ m) := by omega
          simp only [List.mem_singleton, List.mem_cons, Prod.mk.injEq]
          tauto
      · have hcm : c < m := by omega
        rw [if_neg hlt]
        rw [ih]
        have h1 : max m (max c (sndMax es)) = max m (sndMax es) := by
          rcases Nat.le_total c (sndMax es) with h | h
          · rw [max_eq_right h]
          · rw [max_eq_left h, max_eq_left (le_of_lt hcm),
              max_eq_left (le_trans h (le_of_lt hcm))]
        rw [h1]
        have h2 : (max c (sndMax es) ≤ m) ↔ (sndMax es ≤ m) := by
          constructor
          · intro hh
            exact le_trans (le_max_right _ _) hh
          · intro hh
            exact max_le (le_of_lt hcm) hh
        have h3 : ¬(max m (sndMax es) = c) := by
          have := le_max_left m (sndMax es)
          omega
        simp only [List.mem_cons, Prod.mk.injEq, h2]
        tauto

/-- On a board whose buckets are all non-empty, reading every bucket's first
counter succeeds and yields one owner per bucket. -/
theorem bucketOwners_ok (bs : List Bucket) (hne : ∀ b ∈ bs, b.counters ≠ []) :
    ∃ os : List Player, bucketOwners bs = .ok os ∧ os.length = bs.length := by
  induction bs with
  | nil => exact ⟨[], rfl, rfl⟩
  | cons b bs ih =>
    obtain ⟨os, hos, hlen⟩ := ih (fun x hx => hne x (List.mem_cons_of_mem _ hx))
    rcases hcs : b.counters with _ | ⟨p, ps⟩
    · exact absurd hcs (hne b (List.mem_cons_self _ _))
    · refine ⟨p :: os, ?_, by simp [hlen]⟩
      simp [bucketOwners, hcs, hos]

/-- For boards within the `u16` range and with at most as many buffer buckets
as buckets, the wrapping subtraction in `win_bucket_count` is the plain
difference. -/
theorem win_bucket_count_eq (g : GameBoard) (hlt : g.buckets.length < 65536)
    (hbuf : g.buffer_buckets ≤ g.buckets.length) :
    g.win_bucket_count = g.buckets.length - g.buffer_buckets := by
  unfold GameBoard.win_bucket_count
  have hb2 : g.buffer_buckets % 65536 = g.buffer_buckets :=
    Nat.mod_eq_of_lt (by omega)
  rw [Nat.mod_eq_of_lt hlt, hb2]
  omega

/-- There are never more locked buckets than buckets. -/
theorem locked_buckets_le (g : GameBoard) :
    g.locked_buckets ≤ g.buckets.length :=
  List.length_filter_le _ _

/-- C9, amended: provided the board has at least one bucket, at most
`bucket_count` buffer buckets, counts within `u16` range, and no empty bucket
(an empty bucket makes `winners` panic, a separate defect), `winners` returns
no winner exactly below the lock threshold, and otherwise the non-empty list
of exactly those players whose owned-bucket tally is maximal: all tied
players included, none omitted. -/
theorem winners_characterization (g : GameBoard)
    (hcnt : 1 ≤ g.buckets.length) (hlt : g.buckets.length < 65536)
    (hbuf : g.buffer_buckets ≤ g.buckets.length)
    (hne : ∀ b ∈ g.buckets, b.counters ≠ []) :
    (g.locked_buckets < g.buckets.length - g.buffer_buckets →
      g.winners = .ok none) ∧
    (g.buckets.length - g.buffer_buckets ≤ g.locked_buckets →
      ∃ (os : List Player) (ws : List Player),
        bucketOwners g.buckets = .ok os ∧ g.winners = .ok (some ws) ∧
        ws ≠ [] ∧
        ∀ p : Player, p ∈ ws ↔ p ∈ os ∧ ∀ q ∈ os, os.count q ≤ os.count p) := by
  have hwc := win_bucket_count_eq g hlt hbuf
  have hlb : g.locked_buckets % 65536 = g.locked_buckets :=
    Nat.mod_eq_of_lt (lt_of_le_of_lt (locked_buckets_le g) hlt)
  constructor
  · intro hlow
    unfold GameBoard.winners
    rw [if_pos (by rw [hlb, hwc]; exact hlow)]
  · intro hhigh
    obtain ⟨os, hos, hoslen⟩ := bucketOwners_ok g.buckets hne
    have hwin : g.winners =
        .ok (some (collectWinners 0 []
          (os.dedup.map (fun p => (p, os.count p)))).2) := by
      unfold GameBoard.winners
      rw [if_neg (by rw [hlb, hwc]; omega), hos]
    have hosne : os ≠ [] := by
      intro hh
      rw [hh] at hoslen
      simp at hoslen
      omega
    have hdedne : os.dedup ≠ [] := by
      intro hh
      exact hosne ((List.dedup_eq_nil os).mp hh)
    have hentne : os.dedup.map (fun p => (p, os.count p)) ≠ [] := by
      intro hh
      exact hdedne (List.map_eq_nil_iff.mp hh)
    have hmem : ∀ p : Player,
        p ∈ (collectWinners 0 []
          (os.dedup.map (fun p => (p, os.count p)))).2 ↔
        (p, sndMax (os.dedup.map (fun p => (p, os.count p)))) ∈
          os.dedup.map (fun p => (p, os.count p)) := by
      intro p
      rw [collectWinners_mem]
      rw [max_eq_right (Nat.zero_le _)]
      simp
    have hpair : ∀ (p : Player) (n : Nat),
        (p, n) ∈ os.dedup.map (fun p => (p, os.count p)) ↔
          p ∈ os.dedup ∧ os.count p = n := by
      intro p n
      rw [List.mem_map]
      constructor
      · rintro ⟨q, hq, heq⟩
        obtain ⟨h1, h2⟩ := Prod.mk.injEq .. ▸ heq
        exact ⟨h1 ▸ hq, h1 ▸ h2⟩
      · rintro ⟨h1, h2⟩
        exact ⟨p, h1, by rw [h2]⟩
    obtain ⟨p0, hp0⟩ := sndMax_attained _ hentne
    have hp0' := (hpair p0 _).mp hp0
    refine ⟨os, _, hos, hwin, ?_, ?_⟩
    · have : p0 ∈ (collectWinners 0 []
          (os.dedup.map (fun p => (p, os.count p)))).2 :=
        (hmem p0).mpr hp0
      exact List.ne_nil_of_mem this
    · intro p
      rw [hmem p, hpair p _]
      constructor
      · rintro ⟨h1, h2⟩
        refine ⟨List.mem_dedup.mp h1, ?_⟩
        intro q hq
        have hqd : q ∈ os.dedup := List.mem_dedup.mpr hq
        have : (q, os.count q) ∈ os.dedup.map (fun p => (p, os.count p)) :=
          List.mem_map.mpr ⟨q, hqd, rfl⟩
        have := le_sndMax _ _ _ this
        omega
      · rintro ⟨h1, h2⟩
        refine ⟨List.mem_dedup.mpr h1, ?_⟩
        have hple : os.count p ≤
            sndMax (os.dedup.map (fun p => (p, os.count p))) := by
          have : (p, os.count p) ∈ os.dedup.map (fun p => (p, os.count p)) :=
            List.mem_map.mpr ⟨p, List.mem_dedup.mpr h1, rfl⟩
          exact le_sndMax _ _ _ this
        have hp0os : p0 ∈ os := List.mem_dedup.mp hp0'.1
        have := h2 p0 hp0os
        omega

/-- Witness for the amended C9: two capacity-1 buckets locked by different
players, no buffer buckets — the threshold is met and both players tie. -/
theorem winners_characterization_witness :
    ∃ (os ws : List Player),
      bucketOwners (GameBoard.mk [Bucket.mk ['X'] 1 true, Bucket.mk ['O'] 1 true]
        0 4 ['X', 'O'] 0).buckets = .ok os ∧
      (GameBoard.mk [Bucket.mk ['X'] 1 true, Bucket.mk ['O'] 1 true]
        0 4 ['X', 'O'] 0).winners = .ok (some ws) ∧
      ws ≠ [] ∧
      ∀ p : Player, p ∈ ws ↔ p ∈ os ∧ ∀ q ∈ os, os.count q ≤ os.count p :=
  (winners_characterization
    (GameBoard.mk [Bucket.mk ['X'] 1 true, Bucket.mk ['O'] 1 true]
      0 4 ['X', 'O'] 0)
    (by decide) (by decide) (by decide) (by decide)).2 (by decide)

/-- C10: with a step budget of 0 every successfully tokenized,
length-admissible move fails with `MaxSteps` and leaves the board unchanged —
even the empty program, because observing that the program counter has passed
the end consumes one loop iteration and no iterations are available. -/
theorem eval_zero_budget (g : GameBoard) (s : String) (bf : Brainfuck)
    (htok : Brainfuck.new s = .ok bf) (hlen : bf.tokens.length ≤ g.turn + 1) :
    g.eval s 0 = (g, .error .MaxSteps) := by
  have hrun : g.run bf 0 = (g, .error .MaxSteps) := by
    unfold GameBoard.run
    rw [if_neg (by omega)]
    simp [GameBoard.runLoop]
  unfold GameBoard.eval
  rw [htok]
  simp [hrun]

/-- Witness for C10: the empty move on the fresh default board with budget 0
fails with `MaxSteps` and leaves the board untouched. -/
theorem eval_zero_budget_witness :
    (GameBoard.new [10, 10, 10, 10, 10] 0).eval "" 0 =
      (GameBoard.new [10, 10, 10, 10, 10] 0, .error .MaxSteps) :=
  eval_zero_budget (GameBoard.new [10, 10, 10, 10, 10] 0) ""
    { tokens := [], pointer := 0 } (by decide) (by decide)

end BFG
